import Mathlib

/-!
# module26A: ring buffer and filtering pipeline (`main.go`)

Shallow embedding of `main.go`.

* Go `int` values are modelled by `Int`.  The only arithmetic the program does is
  `p + 1`, `p - 1`, `size - 1`, `i + 1` on indices bounded by `len(data)`, and `d % 3`;
  none of them can wrap around, so no `% 2^64` is needed.
* A Go slice `[]int` is a `List Int`; an index expression `s[i]` that is out of range
  panics, which is modelled by `Except Panic`.
* `make([]int, n)` panics with `makeslice: len out of range` for `n < 0` and for `n` above
  the largest length the runtime accepts, `maxAlloc / 8` (`2^45` on linux/amd64).  That bound
  is the parameter `maxLen` of every function that allocates.  Running out of memory below
  the bound is a fatal error of the process and is outside the model.
* The mutex, the goroutines and the channels are not part of the value-level model: the
  functions below describe one call running alone.  The lock discipline itself is modelled
  separately by the event traces `PushEvents` and `GetEvents`.
-/

namespace Module26A

/-- Run-time panics of the Go runtime that the program can reach. -/
inductive Panic where
  | indexOutOfRange
  | makesliceLenOutOfRange
  | closeOfClosedChannel
  deriving DecidableEq, Repr

/-- Struct `RingBuff` (the mutex `m` carries no data). -/
structure RingBuff where
  data : List Int
  p : Int
  size : Int
  deriving DecidableEq, Repr

/-- Package variable `RingBuffSize`. -/
def RingBuffSize : Int := 5

/-- Go `make([]int, n)` on a platform whose largest slice length for `int` is `maxLen`: a
zero-filled slice of length `n`, a panic for `n < 0` and for `n > maxLen`. -/
def makeSlice (maxLen : Nat) (n : Int) : Except Panic (List Int) :=
  if n < 0 ∨ n > maxLen then .error .makesliceLenOutOfRange
  else .ok (List.replicate n.toNat 0)

/-- Go index expression `s[i]` read. -/
def index (s : List Int) (i : Int) : Except Panic Int :=
  if 0 ≤ i ∧ i < s.length then .ok (s.getD i.toNat 0) else .error .indexOutOfRange

/-- Go assignment `s[i] = v`. -/
def assign (s : List Int) (i : Int) (v : Int) : Except Panic (List Int) :=
  if 0 ≤ i ∧ i < s.length then .ok (s.set i.toNat v) else .error .indexOutOfRange

/-- `NewRingBuff(n)`: `&RingBuff{sync.Mutex{}, make([]int, n), -1, n}`. -/
def NewRingBuff (maxLen : Nat) (n : Int) : Except Panic RingBuff := do
  let data ← makeSlice maxLen n
  pure { data := data, p := -1, size := n }

/-- Loop of `Push`: `for i := 1; i < r.size; i++ { r.data[i-1] = r.data[i] }`, started at `i`
with `k` iterations left (`i + k = r.size`). -/
def shiftLoop : Nat → Int → List Int → Except Panic (List Int)
  | 0, _, data => .ok data
  | k + 1, i, data => do
    let v ← index data i
    let data ← assign data (i - 1) v
    shiftLoop k (i + 1) data

/-- Method `Push`. -/
def Push (r : RingBuff) (el : Int) : Except Panic RingBuff := do
  let r ← (if r.p = r.size - 1 then do
      let data ← shiftLoop (r.size - 1).toNat 1 r.data
      pure { r with data := data, p := r.p - 1 }
    else pure r)
  let r := { r with p := r.p + 1 }
  let data ← assign r.data r.p el
  pure { r with data := data }

/-- Loop of `Get`: `for i := 0; i <= r.p; i++ { res[i] = r.data[i] }`, started at `i` with
`k` iterations left (`i + k = r.p + 1`). -/
def copyLoop (data : List Int) : Nat → Int → List Int → Except Panic (List Int)
  | 0, _, res => .ok res
  | k + 1, i, res => do
    let v ← index data i
    let res ← assign res i v
    copyLoop data k (i + 1) res

/-- Method `Get`: the returned slice (`nil` is the empty list) and the buffer afterwards. -/
def Get (maxLen : Nat) (r : RingBuff) : Except Panic (List Int × RingBuff) :=
  if r.p < 0 then .ok ([], r)
  else do
    let res ← makeSlice maxLen (r.p + 1)
    let res ← copyLoop r.data (r.p + 1).toNat 0 res
    pure (res, { r with p := -1 })

/-- The items a buffer holds: `data[0..p]`. -/
def held (r : RingBuff) : List Int := r.data.take (r.p + 1).toNat

/-- Body of the `case d := <-in` branch of `notNegPipe`: the values sent on `out`. -/
def notNegStep (d : Int) : List Int :=
  if d ≥ 0 then [d] else []

/-- Body of the `case d := <-in` branch of `divThreePipe`: the values sent on `out`.
Go's `%` is the truncated remainder `Int.tmod`. -/
def divThreeStep (d : Int) : List Int :=
  if d.tmod 3 = 0 ∧ d ≠ 0 then [d] else []

/-- Stage `notNegPipe` run on the values received from `in`, in order. -/
def notNegPipe (ins : List Int) : List Int := ins.flatMap notNegStep

/-- Stage `divThreePipe` run on the values received from `in`, in order. -/
def divThreePipe (ins : List Int) : List Int := ins.flatMap divThreeStep

/-- The pushing goroutine of `buffPipe` run on the values received from `in`, in order. -/
def buffPipe (buff : RingBuff) : List Int → Except Panic RingBuff
  | [] => .ok buff
  | d :: ins => do
    let buff ← Push buff d
    buffPipe buff ins

/-- One tick of `consumer`: the slices printed and the buffer afterwards. -/
def consumerTick (maxLen : Nat) (buff : RingBuff) :
    Except Panic (List (List Int) × RingBuff) := do
  let (res, buff) ← Get maxLen buff
  if res.length > 0 then pure ([res], buff) else pure ([], buff)

/-- Sequential reading of `makePipeline` with buffer size `n`: every submitted value passes
`notNegPipe`, `divThreePipe` and `buffPipe`, then the ticker fires once. -/
def makePipeline (maxLen : Nat) (n : Int) (input : List Int) :
    Except Panic (List (List Int)) := do
  let buff ← NewRingBuff maxLen n
  let buff ← buffPipe buff (divThreePipe (notNegPipe input))
  let (out, _) ← consumerTick maxLen buff
  pure out

/-- A client that calls `Push` once per value, in order. -/
def pushAll (r : RingBuff) : List Int → Except Panic RingBuff
  | [] => .ok r
  | el :: els => do
    let r ← Push r el
    pushAll r els

/-- A client that builds `NewRingBuff(n)`, pushes the values in order and then calls `Get`:
the slice `Get` returns. -/
def pushThenGet (maxLen : Nat) (n : Int) (els : List Int) : Except Panic (List Int) := do
  let r ← NewRingBuff maxLen n
  let r ← pushAll r els
  let (res, _) ← Get maxLen r
  pure res

/-- One method call on a buffer. -/
inductive Call where
  | push (el : Int)
  | get
  deriving DecidableEq, Repr

/-- The buffer after one method call. -/
def call (maxLen : Nat) (r : RingBuff) : Call → Except Panic RingBuff
  | .push el => Push r el
  | .get => do
    let (_, r) ← Get maxLen r
    pure r

/-- The buffer after a sequence of method calls. -/
def calls (maxLen : Nat) (r : RingBuff) : List Call → Except Panic RingBuff
  | [] => .ok r
  | c :: cs => do
    let r ← call maxLen r c
    calls maxLen r cs

/-- Invariant of a buffer of capacity `c`: `size = len(data) = c` and `-1 ≤ p ≤ c - 1`. -/
def Inv (c : Int) (r : RingBuff) : Prop :=
  r.size = c ∧ (r.data.length : Int) = c ∧ -1 ≤ r.p ∧ r.p ≤ c - 1

/-- The `done` channel of `makePipeline`. No value is ever sent on it, so its state is whether
it has been closed. -/
structure Chan where
  closed : Bool
  deriving DecidableEq, Repr

/-- Go builtin `close(ch)`: closing a channel that is already closed panics. -/
def close (ch : Chan) : Except Panic Chan :=
  if ch.closed then .error .closeOfClosedChannel else .ok { closed := true }

/-- What one round of the input loop of `main` reads from the scanner. -/
inductive Line where
  /-- Case `scanner.Err() != nil`. -/
  | scanErr
  /-- Case `strings.EqualFold(data, "exit")`. -/
  | exit
  /-- Case `strconv.Atoi(data)` returns `d` and no error. -/
  | num (d : Int)
  /-- Case `strconv.Atoi(data)` returns an error. -/
  | other
  deriving DecidableEq, Repr

/-- The input loop of `main` on the lines read so far: the `done` channel and the values sent
on `input`, in order. Both `close(done)` sites are followed by `break`. -/
def mainLoop (done : Chan) : List Line → Except Panic (Chan × List Int)
  | [] => .ok (done, [])
  | .scanErr :: _ => do
    let done ← close done
    pure (done, [])
  | .exit :: _ => do
    let done ← close done
    pure (done, [])
  | .num d :: ls => do
    let (done, sent) ← mainLoop done ls
    pure (done, d :: sent)
  | .other :: ls => mainLoop done ls

/-- Function `main`: `makePipeline` returns a fresh, open `done` channel. -/
def main (lines : List Line) : Except Panic (Chan × List Int) :=
  mainLoop { closed := false } lines

/-- A field of `RingBuff` other than the mutex. -/
inductive Field where
  | data
  | p
  | size
  deriving DecidableEq, Repr

/-- What one method call does to the buffer, in program order: `r.m.Lock()`, `r.m.Unlock()`
(deferred, so it runs last) and every read or write of a field. -/
inductive Event where
  | lock
  | unlock
  | access (f : Field)
  deriving DecidableEq, Repr

/-- Events of `Push`, statement by statement, for a call that does not panic. -/
def PushEvents (r : RingBuff) : List Event :=
  [.lock]
  -- `if r.p == r.size-1`
  ++ [.access .p, .access .size]
  ++ (if r.p = r.size - 1 then
        -- `for i := 1; i < r.size; i++ { r.data[i-1] = r.data[i] }`
        (List.replicate (r.size - 1).toNat
          [.access .size, .access .data, .access .data]).flatten
        ++ [.access .size]
        -- `r.p--`
        ++ [.access .p]
      else [])
  -- `r.p++`
  ++ [.access .p]
  -- `r.data[r.p] = el`
  ++ [.access .p, .access .data]
  ++ [.unlock]

/-- Events of `Get`, statement by statement, for a call that does not panic. -/
def GetEvents (r : RingBuff) : List Event :=
  -- `if r.p < 0 { return nil }`
  [.access .p]
  ++ (if r.p < 0 then []
      else
        [.lock]
        -- `res := make([]int, r.p+1)`
        ++ [.access .p]
        -- `for i := 0; i <= r.p; i++ { res[i] = r.data[i] }`
        ++ (List.replicate (r.p + 1).toNat [.access .p, .access .data]).flatten
        ++ [.access .p]
        -- `r.p = -1`
        ++ [.access .p]
        ++ [.unlock])

/-- Whether every field access of a trace happens while the mutex is held; `locked` says
whether it is held at the start. -/
def guarded : Bool → List Event → Bool
  | _, [] => true
  | _, .lock :: es => guarded true es
  | _, .unlock :: es => guarded false es
  | locked, .access _ :: es => locked && guarded locked es

/-! ## Slice lemmas -/

theorem index_append (pre : List Int) (a : Int) (rest : List Int) :
    index (pre ++ a :: rest) (pre.length : Int) = .ok a := by
  have h : (0 : Int) ≤ pre.length ∧ (pre.length : Int) < (pre ++ a :: rest).length := by
    constructor
    · exact Int.natCast_nonneg _
    · simp only [List.length_append, List.length_cons]; push_cast; omega
  unfold index
  rw [if_pos h]
  simp [List.getElem_append_right]

theorem assign_append (pre : List Int) (a : Int) (rest : List Int) (v : Int) :
    assign (pre ++ a :: rest) (pre.length : Int) v = .ok (pre ++ v :: rest) := by
  have h : (0 : Int) ≤ pre.length ∧ (pre.length : Int) < (pre ++ a :: rest).length := by
    constructor
    · exact Int.natCast_nonneg _
    · simp only [List.length_append, List.length_cons]; push_cast; omega
  unfold assign
  rw [if_pos h]
  simp

/-- The shifting loop of `Push`, started at index `pre.length + 1`, moves every later element
one position toward the front and leaves the last element in place. -/
theorem shiftLoop_append (rest : List Int) :
    ∀ (pre : List Int) (a : Int),
      shiftLoop rest.length ((pre.length : Int) + 1) (pre ++ a :: rest)
        = .ok (pre ++ rest ++ [rest.getLastD a]) := by
  induction rest with
  | nil => intro pre a; simp [shiftLoop]
  | cons b rest ih =>
    intro pre a
    have h1 : index (pre ++ a :: b :: rest) ((pre.length : Int) + 1) = .ok b := by
      have := index_append (pre ++ [a]) b rest
      simpa using this
    have h2 : assign (pre ++ a :: b :: rest) ((pre.length : Int) + 1 - 1) b
        = .ok ((pre ++ [b]) ++ b :: rest) := by
      have := assign_append pre a (b :: rest) b
      simpa using this
    have h3 := ih (pre ++ [b]) b
    simp only [List.length_append, List.length_singleton, Nat.cast_add, Nat.cast_one] at h3
    simp only [List.length_cons, shiftLoop, h1, h2, bind, Except.bind, h3]
    rw [List.getLastD_cons]
    simp

/-- The copying loop of `Get`, started at index `pre.length` with `m` iterations left, fills the
next `m` cells of the result with the next `m` cells of `data`. -/
theorem copyLoop_append (m : Nat) :
    ∀ (pre dpre drest : List Int), dpre.length = pre.length → m ≤ drest.length →
      copyLoop (dpre ++ drest) m (pre.length : Int) (pre ++ List.replicate m 0)
        = .ok (pre ++ drest.take m) := by
  induction m with
  | zero => intro pre dpre drest _ _; simp [copyLoop]
  | succ m ih =>
    intro pre dpre drest hlen hm
    cases drest with
    | nil => simp at hm
    | cons x drest =>
      have h1 : index (dpre ++ x :: drest) (pre.length : Int) = .ok x := by
        rw [← hlen]; exact index_append dpre x drest
      have h2 : assign (pre ++ List.replicate (m + 1) 0) (pre.length : Int) x
          = .ok ((pre ++ [x]) ++ List.replicate m 0) := by
        have := assign_append pre 0 (List.replicate m 0) x
        simpa [List.replicate_succ] using this
      have h3 := ih (pre ++ [x]) (dpre ++ [x]) drest (by simp [hlen])
        (by simpa using hm)
      simp only [List.length_append, List.length_singleton, Nat.cast_add, Nat.cast_one,
        List.append_assoc, List.singleton_append] at h3
      simp only [copyLoop, h1, h2, bind, Except.bind, List.append_assoc, List.singleton_append,
        h3, List.take_succ_cons]

/-! ## What `Get` and `Push` compute -/

/-- `Get` on a buffer whose held items exist (`p < len(data)`) and fit a slice of the platform:
it returns `data[0..p]` and sets `p` to `-1`. -/
theorem Get_eq (maxLen : Nat) (r : RingBuff) (h0 : -1 ≤ r.p) (h1 : r.p < r.data.length)
    (hmax : r.p + 1 ≤ maxLen) :
    Get maxLen r = .ok (held r, { r with p := -1 }) := by
  unfold Get held
  by_cases hp : r.p < 0
  · have : r.p = -1 := by omega
    rw [if_pos hp]
    cases r with
    | mk data p size =>
      simp only at this
      subst this
      simp
  · rw [if_neg hp]
    have hm : (r.p + 1).toNat ≤ r.data.length := by omega
    have hmk : makeSlice maxLen (r.p + 1) = .ok (List.replicate (r.p + 1).toNat 0) := by
      unfold makeSlice
      rw [if_neg (by omega)]
    have := copyLoop_append (r.p + 1).toNat [] [] r.data rfl hm
    simp only [List.length_nil, Nat.cast_zero, List.nil_append] at this
    simp only [hmk, bind, Except.bind, this, pure, Except.pure]

/-- `Push` on a buffer that is not at capacity writes `el` into the cell after the held
items. -/
theorem Push_not_full (r : RingBuff) (el : Int) (hne : r.p ≠ r.size - 1)
    (h0 : -1 ≤ r.p) (h1 : r.p + 1 < r.data.length) :
    Push r el = .ok { r with data := r.data.set (r.p + 1).toNat el, p := r.p + 1 } := by
  unfold Push
  rw [if_neg hne]
  have h : (0 : Int) ≤ r.p + 1 ∧ r.p + 1 < (r.data.length : Int) := ⟨by omega, h1⟩
  simp only [bind, Except.bind, pure, Except.pure, assign, if_pos h]

/-- `Push` on a buffer at capacity drops the first cell, shifts the others and writes `el`
into the last cell. -/
theorem Push_full (r : RingBuff) (el : Int) (hfull : r.p = r.size - 1)
    (hsize : r.size = r.data.length) (hpos : 1 ≤ r.size) :
    Push r el = .ok { r with data := r.data.tail ++ [el] } := by
  cases r with
  | mk data p size =>
    simp only at hfull hsize hpos
    cases data with
    | nil => simp at hsize; omega
    | cons a rest =>
      have hs : size = (rest.length : Int) + 1 := by simpa using hsize
      have hk : (size - 1).toNat = rest.length := by omega
      have hshift := shiftLoop_append rest [] a
      simp only [List.length_nil, Nat.cast_zero, zero_add, List.nil_append] at hshift
      have hp : p - 1 + 1 = (rest.length : Int) := by omega
      have hassign := assign_append rest (rest.getLastD a) [] el
      unfold Push
      simp only [if_pos hfull, hk, hshift, bind, Except.bind, pure, Except.pure, hp, hassign,
        List.tail_cons]
      congr 2
      omega

/-! ## The buffer invariant -/

theorem take_set_succ (v : Int) : ∀ (l : List Int) (n : Nat), n < l.length →
    (l.set n v).take (n + 1) = l.take n ++ [v] := by
  intro l
  induction l with
  | nil => intro n h; simp at h
  | cons a l ih =>
    intro n h
    cases n with
    | zero => simp
    | succ n =>
      have := ih n (by simpa using h)
      simp [List.set_cons_succ, List.take_succ_cons, this]

theorem held_length (c : Int) (r : RingBuff) (h : Inv c r) :
    ((held r).length : Int) = r.p + 1 := by
  obtain ⟨_, hlen, h0, h1⟩ := h
  unfold held
  rw [List.length_take]
  omega

/-- Effect of `Push` on a buffer satisfying the invariant. -/
theorem Push_inv (c : Int) (hc : 1 ≤ c) (r : RingBuff) (el : Int) (h : Inv c r) :
    ∃ r', Push r el = .ok r' ∧ Inv c r' ∧
      held r' = (if r.p = c - 1 then (held r).tail ++ [el] else held r ++ [el]) := by
  obtain ⟨hsize, hlen, h0, h1⟩ := h
  by_cases hfull : r.p = c - 1
  · refine ⟨_, Push_full r el (by omega) (by omega) (by omega), ?_, ?_⟩
    · refine ⟨hsize, ?_, h0, h1⟩
      simp only [List.length_append, List.length_tail, List.length_singleton]
      omega
    · rw [if_pos hfull]
      unfold held
      have e1 : (r.p + 1).toNat = r.data.length := by omega
      have e2 : (r.p + 1).toNat = (r.data.tail ++ [el]).length := by
        simp only [List.length_append, List.length_tail, List.length_singleton]
        omega
      simp only
      rw [e2, List.take_length, ← e2, e1, List.take_length]
  · have hlt : r.p + 1 < (r.data.length : Int) := by omega
    refine ⟨_, Push_not_full r el (by omega) h0 hlt, ?_, ?_⟩
    · refine ⟨hsize, ?_, ?_, ?_⟩
      · simpa using hlen
      · simp only; omega
      · simp only; omega
    · rw [if_neg hfull]
      unfold held
      simp only
      have e : (r.p + 1 + 1).toNat = (r.p + 1).toNat + 1 := by omega
      rw [e]
      exact take_set_succ el r.data (r.p + 1).toNat (by omega)

/-- Effect of `Get` on a buffer satisfying the invariant. -/
theorem Get_inv (maxLen : Nat) (c : Int) (hmax : c ≤ maxLen) (r : RingBuff) (h : Inv c r) :
    Get maxLen r = .ok (held r, { r with p := -1 }) ∧ Inv c { r with p := -1 } := by
  obtain ⟨hsize, hlen, h0, h1⟩ := h
  refine ⟨Get_eq maxLen r h0 (by omega) (by omega), hsize, hlen, le_refl _, ?_⟩
  simp only
  omega

theorem NewRingBuff_inv (maxLen c : Nat) (hmax : c ≤ maxLen) :
    NewRingBuff maxLen c = .ok ⟨List.replicate c 0, -1, c⟩ ∧
      Inv c ⟨List.replicate c 0, -1, c⟩ := by
  constructor
  · unfold NewRingBuff makeSlice
    rw [if_neg (by omega)]
    simp [bind, Except.bind, pure, Except.pure]
  · refine ⟨rfl, by simp, le_refl _, by simp only; omega⟩

/-- `NewRingBuff(c)` returns a buffer exactly when `make` accepts the length `c`, and the
buffer it returns is the empty one over `c` zero cells. -/
theorem NewRingBuff_returned (maxLen c : Nat) (r0 : RingBuff)
    (h : NewRingBuff maxLen c = .ok r0) :
    c ≤ maxLen ∧ r0 = ⟨List.replicate c 0, -1, c⟩ := by
  by_cases hmax : c ≤ maxLen
  · rw [(NewRingBuff_inv maxLen c hmax).1] at h
    exact ⟨hmax, (Except.ok.inj h).symm⟩
  · exfalso
    unfold NewRingBuff makeSlice at h
    rw [if_pos (Or.inr (by omega))] at h
    cases h

theorem pushAll_append (ys zs : List Int) : ∀ r : RingBuff,
    pushAll r (ys ++ zs) = (pushAll r ys >>= fun r' => pushAll r' zs) := by
  induction ys with
  | nil => intro r; rfl
  | cons y ys ih =>
    intro r
    simp only [List.cons_append, pushAll, bind, Except.bind]
    cases Push r y with
    | error e => rfl
    | ok r1 => simpa [bind, Except.bind] using ih r1

/-- After pushing `xs` onto a fresh buffer of capacity `c`, the buffer holds the last
`min (len xs) c` values of `xs`. -/
theorem pushAll_fresh (c : Nat) (hc : 1 ≤ c) (xs : List Int) :
    ∃ r, pushAll ⟨List.replicate c 0, -1, c⟩ xs = .ok r ∧ Inv c r ∧
      held r = xs.drop (xs.length - c) := by
  induction xs using List.reverseRecOn with
  | nil =>
    refine ⟨_, rfl, (NewRingBuff_inv c c (le_refl _)).2, ?_⟩
    simp [held]
  | append_singleton ys d ih =>
    obtain ⟨r, hrun, hinv, hheld⟩ := ih
    obtain ⟨r', hpush, hinv', hheld'⟩ := Push_inv c (by omega) r d hinv
    refine ⟨r', ?_, hinv', ?_⟩
    · rw [pushAll_append, hrun]
      simp only [bind, Except.bind, pushAll, hpush]
    · have hl := held_length c r hinv
      rw [hheld, List.length_drop] at hl
      rw [hheld', hheld]
      by_cases hfull : r.p = (c : Int) - 1
      · rw [if_pos hfull]
        have hge : c ≤ ys.length := by omega
        rw [List.tail_drop, List.length_append, List.length_singleton,
          List.drop_append_of_le_length (by omega)]
        congr 2
        omega
      · rw [if_neg hfull]
        have hlt : ys.length < c := by omega
        have e1 : ys.length - c = 0 := by omega
        have e2 : (ys ++ [d]).length - c = 0 := by
          rw [List.length_append, List.length_singleton]; omega
        rw [e1, e2, List.drop_zero, List.drop_zero]

/-! ## Claims -/

/-- C1. For every capacity `c ≥ 1` and every list `xs` of values pushed in order onto the fresh
buffer `r0` that `NewRingBuff(c)` returned, the following `Get` returns exactly the last
`min (len xs) c` values of `xs` in their order; in particular after `c + k` pushes (`k ≥ 1`) it
returns the last `c` values, which is `xs` without its first `k`. -/
theorem Get_after_pushes (maxLen c : Nat) (r0 : RingBuff) (hc : 1 ≤ c)
    (hnew : NewRingBuff maxLen c = .ok r0) (xs : List Int) :
    (∃ r r', pushAll r0 xs = .ok r ∧
      Get maxLen r = .ok (xs.drop (xs.length - min xs.length c), r')) ∧
      pushThenGet maxLen c xs = .ok (xs.drop (xs.length - min xs.length c)) ∧
      (xs.drop (xs.length - min xs.length c)).length = min xs.length c ∧
      ∀ k, 1 ≤ k → xs.length = c + k →
        pushThenGet maxLen c xs = .ok (xs.drop k) ∧ (xs.drop k).length = c := by
  obtain ⟨hmax, hr0⟩ := NewRingBuff_returned maxLen c r0 hnew
  subst hr0
  obtain ⟨r, hrun, hinv, hheld⟩ := pushAll_fresh c hc xs
  have hget := (Get_inv maxLen c (by exact_mod_cast hmax) r hinv).1
  have e : xs.length - min xs.length c = xs.length - c := by omega
  have hrun' : pushThenGet maxLen c xs = .ok (xs.drop (xs.length - c)) := by
    unfold pushThenGet
    simp only [hnew, hrun, hget, hheld, bind, Except.bind, pure, Except.pure]
  refine ⟨⟨r, { r with p := -1 }, hrun, ?_⟩, ?_, ?_, ?_⟩
  · rw [hget, hheld, e]
  · rw [hrun', e]
  · rw [List.length_drop]; omega
  · intro k hk hlen
    have ek : xs.length - c = k := by omega
    refine ⟨?_, ?_⟩
    · rw [hrun', ek]
    · rw [List.length_drop]; omega

theorem Get_after_pushes_witness :
    1 ≤ 2 ∧ NewRingBuff (2 ^ 45) (2 : Nat) = .ok ⟨[0, 0], -1, 2⟩ ∧
      pushThenGet (2 ^ 45) (2 : Nat) [7, 8, 9] = .ok [8, 9] :=
  ⟨by decide, rfl,
    (Get_after_pushes (2 ^ 45) 2 ⟨[0, 0], -1, 2⟩ (by decide) (by rfl) [7, 8, 9]).2.1⟩

/-- C2. For every capacity `c ≥ 1` and every finite sequence of `Push` and `Get` calls applied
to the buffer `r0` that `NewRingBuff(c)` returned, after every call (after the first `k`
calls, for every `k`) no call has panicked and the number of held items `p + 1` satisfies
`0 ≤ p + 1 ≤ c`, with `size` and `len(data)` still equal to `c` (and so `len(data)` within the
platform's largest slice length). -/
theorem calls_keep_capacity (maxLen c : Nat) (r0 : RingBuff) (hc : 1 ≤ c)
    (hnew : NewRingBuff maxLen c = .ok r0) (cs : List Call) (k : Nat) :
    ∃ r, calls maxLen r0 (cs.take k) = .ok r ∧
      0 ≤ r.p + 1 ∧ r.p + 1 ≤ c ∧ (-1 ≤ r.p ∧ r.p ≤ r.size - 1) ∧
      r.size = c ∧ r.data.length = c ∧ (held r).length ≤ c ∧ r.data.length ≤ maxLen := by
  obtain ⟨hmax, hr0⟩ := NewRingBuff_returned maxLen c r0 hnew
  subst hr0
  have hmax' : (c : Int) ≤ maxLen := by exact_mod_cast hmax
  have key : ∀ (l : List Call) (r : RingBuff), Inv c r →
      ∃ r', calls maxLen r l = .ok r' ∧ Inv c r' := by
    intro l
    induction l with
    | nil => intro r h; exact ⟨r, rfl, h⟩
    | cons a l ih =>
      intro r h
      cases a with
      | push el =>
        obtain ⟨r1, h1, hinv1, _⟩ := Push_inv c (by omega) r el h
        obtain ⟨r2, h2, hinv2⟩ := ih r1 hinv1
        exact ⟨r2, by simp only [calls, call, h1, bind, Except.bind, h2], hinv2⟩
      | get =>
        obtain ⟨h1, hinv1⟩ := Get_inv maxLen c hmax' r h
        obtain ⟨r2, h2, hinv2⟩ := ih _ hinv1
        exact ⟨r2, by simp only [calls, call, h1, bind, Except.bind, pure, Except.pure, h2],
          hinv2⟩
  obtain ⟨r, hrun, hinv⟩ := key (cs.take k) _ (NewRingBuff_inv maxLen c hmax).2
  have hl := held_length c r hinv
  obtain ⟨hsize, hlen, h0, h1⟩ := hinv
  refine ⟨r, hrun, by omega, by omega, ⟨h0, by omega⟩, hsize,
    by exact_mod_cast hlen, by omega, by omega⟩

theorem calls_keep_capacity_witness :
    1 ≤ 2 ∧ NewRingBuff (2 ^ 45) (2 : Nat) = .ok ⟨[0, 0], -1, 2⟩ ∧
      ∃ r, calls (2 ^ 45) ⟨[0, 0], -1, 2⟩
          ([Call.push 1, .push 2, .push 3, .get, .push 4].take 5) = .ok r ∧
        0 ≤ r.p + 1 ∧ r.p + 1 ≤ (2 : Nat) ∧ (-1 ≤ r.p ∧ r.p ≤ r.size - 1) ∧
        r.size = (2 : Nat) ∧ r.data.length = 2 ∧ (held r).length ≤ 2 ∧
        r.data.length ≤ 2 ^ 45 :=
  ⟨by decide, rfl,
    calls_keep_capacity (2 ^ 45) 2 ⟨[0, 0], -1, 2⟩ (by decide) (by rfl)
      [.push 1, .push 2, .push 3, .get, .push 4] 5⟩

/-- C4. For every buffer state with `size = len(data) = c ≥ 1` and `-1 ≤ p ≤ c - 1`, whatever
lies in `data` beyond index `p`, and every value `v`, `Push(v)` returns without a panic, keeps
`size` and `len(data)`, and the held items `data[0..p]` afterwards are the old held items
followed by `v` when the buffer was not at capacity, and the old held items without the oldest
one, in the same order, followed by `v` when it was at capacity. -/
theorem Push_appends_or_evicts (c : Int) (r : RingBuff) (v : Int) (hc : 1 ≤ c)
    (hsize : r.size = c) (hlen : (r.data.length : Int) = c) (h0 : -1 ≤ r.p)
    (h1 : r.p ≤ c - 1) :
    ∃ r', Push r v = .ok r' ∧ r'.size = c ∧ (r'.data.length : Int) = c ∧
      (r.p ≠ c - 1 → r'.p = r.p + 1 ∧ held r' = held r ++ [v]) ∧
      (r.p = c - 1 → r'.p = r.p ∧ held r' = (held r).drop 1 ++ [v]) := by
  have hinv : Inv c r := ⟨hsize, hlen, h0, h1⟩
  obtain ⟨r', hpush, hinv', hheld⟩ := Push_inv c hc r v hinv
  have hl := held_length c r hinv
  have hl' := held_length c r' hinv'
  refine ⟨r', hpush, hinv'.1, hinv'.2.1, ?_, ?_⟩
  · intro hne
    rw [if_neg hne] at hheld
    rw [hheld, List.length_append, List.length_singleton] at hl'
    push_cast at hl'
    exact ⟨by omega, hheld⟩
  · intro hfull
    rw [if_pos hfull] at hheld
    rw [hheld, List.length_append, List.length_singleton, List.length_tail] at hl'
    refine ⟨by omega, ?_⟩
    rw [hheld, List.drop_one]

theorem Push_appends_or_evicts_witness :
    (1 : Int) ≤ 3 ∧ ∃ r', Push ⟨[1, 2, 3], 2, 3⟩ 9 = .ok r' ∧ r'.p = 2 ∧ held r' = [2, 3, 9] := by
  obtain ⟨r', hpush, _, _, _, hfull⟩ :=
    Push_appends_or_evicts 3 ⟨[1, 2, 3], 2, 3⟩ 9 (by decide) rfl rfl (by decide) (by decide)
  exact ⟨by decide, r', hpush, (hfull rfl).1, (hfull rfl).2⟩

/-- C5. For every buffer state with `-1 ≤ p ≤ size - 1`, where `size` is `len(data)` as in every
buffer built by `NewRingBuff` and `data` is a slice of the platform (`len(data) ≤ maxLen`),
`Get` returns exactly the held values `data[0..p]` in order (`p + 1` of them, none when
`p = -1`) and leaves the buffer empty (`p = -1`), so that an immediate second `Get` returns an
empty result. -/
theorem Get_returns_held_and_empties (maxLen : Nat) (r : RingBuff) (h0 : -1 ≤ r.p)
    (h1 : r.p ≤ r.size - 1) (hlen : r.size = r.data.length) (hmax : r.data.length ≤ maxLen) :
    ∃ r', Get maxLen r = .ok (r.data.take (r.p + 1).toNat, r') ∧
      ((r.data.take (r.p + 1).toNat).length : Int) = r.p + 1 ∧
      (r.p = -1 → r.data.take (r.p + 1).toNat = []) ∧
      r'.p = -1 ∧ held r' = [] ∧ Get maxLen r' = .ok ([], r') := by
  have hinv : Inv r.size r := ⟨rfl, hlen.symm, h0, h1⟩
  obtain ⟨hget, hinv'⟩ := Get_inv maxLen r.size (by omega) r hinv
  refine ⟨_, hget, held_length r.size r hinv, ?_, rfl, ?_, ?_⟩
  · intro hp
    rw [hp]
    rfl
  · simp [held]
  · simp [Get]

theorem Get_returns_held_and_empties_witness :
    ∃ r', Get (2 ^ 45) ⟨[4, 5, 6], 1, 3⟩ = .ok ([4, 5], r') ∧ r'.p = -1 ∧
      Get (2 ^ 45) r' = .ok ([], r') := by
  obtain ⟨r', h1, _, _, h2, _, h3⟩ :=
    Get_returns_held_and_empties (2 ^ 45) ⟨[4, 5, 6], 1, 3⟩ (by decide) (by decide) rfl
      (by decide)
  exact ⟨r', h1, h2, h3⟩

/-! ## The filter stages and the pipeline -/

theorem notNegPipe_eq_filter (ins : List Int) :
    notNegPipe ins = ins.filter (fun d => decide (d ≥ 0)) := by
  induction ins with
  | nil => rfl
  | cons d ins ih =>
    unfold notNegPipe at ih ⊢
    rw [List.flatMap_cons, ih]
    by_cases h : d ≥ 0 <;> simp [notNegStep, h, List.filter_cons]

theorem divThreePipe_eq_filter (ins : List Int) :
    divThreePipe ins = ins.filter (fun d => decide (d ≠ 0 ∧ d % 3 = 0)) := by
  induction ins with
  | nil => rfl
  | cons d ins ih =>
    unfold divThreePipe at ih ⊢
    rw [List.flatMap_cons, ih]
    have e : d.tmod 3 = 0 ↔ d % 3 = 0 := by
      rw [← Int.dvd_iff_tmod_eq_zero, Int.dvd_iff_emod_eq_zero]
    by_cases h : d ≠ 0 ∧ d % 3 = 0
    · have h' : d.tmod 3 = 0 ∧ d ≠ 0 := ⟨e.2 h.2, h.1⟩
      rw [List.filter_cons, if_pos (by simpa using h)]
      simp only [divThreeStep, if_pos h', List.singleton_append]
    · have h' : ¬ (d.tmod 3 = 0 ∧ d ≠ 0) := fun hh => h ⟨hh.2, e.1 hh.1⟩
      rw [List.filter_cons, if_neg (by simpa using h)]
      simp only [divThreeStep, if_neg h', List.nil_append]

theorem buffPipe_eq_pushAll (ins : List Int) : ∀ r : RingBuff, buffPipe r ins = pushAll r ins := by
  induction ins with
  | nil => intro r; rfl
  | cons d ins ih =>
    intro r
    simp only [buffPipe, pushAll, bind, Except.bind]
    cases Push r d with
    | error e => rfl
    | ok r1 => exact ih r1

/-- C3. For every integer `v`, the stage `notNegPipe` sends `v` on its output iff `v ≥ 0` and
sends nothing otherwise; the stage `divThreePipe` sends `v` iff `v ≠ 0` and `v mod 3 = 0` (for
Go's truncated remainder as well as for the mathematical one) and sends nothing otherwise.
Run on a sequence of received values, each stage emits exactly the values that pass, in
order. -/
theorem filter_stages (v : Int) :
    (notNegStep v = [v] ↔ v ≥ 0) ∧ (notNegStep v = [] ↔ ¬ v ≥ 0) ∧
    (divThreeStep v = [v] ↔ v ≠ 0 ∧ v % 3 = 0) ∧
    (divThreeStep v = [] ↔ ¬ (v ≠ 0 ∧ v % 3 = 0)) ∧
    (divThreeStep v = [v] ↔ v ≠ 0 ∧ v.tmod 3 = 0) ∧
    (divThreeStep v = [v] ↔ v ≠ 0 ∧ 3 ∣ v) ∧
    (∀ ins : List Int, notNegPipe ins = ins.filter (fun d => decide (d ≥ 0))) ∧
    (∀ ins : List Int, divThreePipe ins = ins.filter (fun d => decide (d ≠ 0 ∧ d % 3 = 0))) := by
  have e : v.tmod 3 = 0 ↔ v % 3 = 0 := by
    rw [← Int.dvd_iff_tmod_eq_zero, Int.dvd_iff_emod_eq_zero]
  have d : (3 : Int) ∣ v ↔ v.tmod 3 = 0 := Int.dvd_iff_tmod_eq_zero
  refine ⟨?_, ?_, ?_, ?_, ?_, ?_, notNegPipe_eq_filter, divThreePipe_eq_filter⟩
  · unfold notNegStep; by_cases h : v ≥ 0 <;> simp [h]
  · unfold notNegStep; by_cases h : v ≥ 0 <;> simp [h]
  · unfold divThreeStep
    by_cases h : v.tmod 3 = 0 ∧ v ≠ 0
    · simp only [if_pos h, true_iff]; exact ⟨h.2, e.1 h.1⟩
    · simp only [if_neg h, List.nil_eq, List.cons_ne_nil, false_iff]
      exact fun hh => h ⟨e.2 hh.2, hh.1⟩
  · unfold divThreeStep
    by_cases h : v.tmod 3 = 0 ∧ v ≠ 0
    · simp only [if_pos h, List.cons_ne_nil, false_iff, not_not]; exact ⟨h.2, e.1 h.1⟩
    · simp only [if_neg h, true_iff]
      exact fun hh => h ⟨e.2 hh.2, hh.1⟩
  · unfold divThreeStep
    by_cases h : v.tmod 3 = 0 ∧ v ≠ 0
    · simp only [if_pos h, true_iff]; exact ⟨h.2, h.1⟩
    · simp only [if_neg h, List.nil_eq, List.cons_ne_nil, false_iff]
      exact fun hh => h ⟨hh.2, hh.1⟩
  · unfold divThreeStep
    by_cases h : v.tmod 3 = 0 ∧ v ≠ 0
    · simp only [if_pos h, true_iff]; exact ⟨h.2, d.2 h.1⟩
    · simp only [if_neg h, List.nil_eq, List.cons_ne_nil, false_iff]
      exact fun hh => h ⟨d.1 hh.2, hh.1⟩

/-- C6, as stated, fails at `n = 0`: on every platform `NewRingBuff(0)` returns a buffer, and
it is the first `Push` on that buffer that panics. -/
theorem NewRingBuff_zero_returns :
    (∀ maxLen, NewRingBuff maxLen 0 = .ok ⟨[], -1, 0⟩) ∧
      (∀ maxLen e, NewRingBuff maxLen 0 ≠ .error e) ∧
      Push ⟨[], -1, 0⟩ 1 = .error .indexOutOfRange := by
  refine ⟨fun _ => rfl, ?_, rfl⟩
  intro maxLen e h
  cases h

/-- C6, amended. For every `n < 0`, `NewRingBuff(n)` panics itself (in `make`); for `n = 0` it
returns an empty buffer of size `0`, and every first `Push` on that buffer panics with an index
out of range. -/
theorem NewRingBuff_nonpositive (maxLen : Nat) (n : Int) :
    (n < 0 → NewRingBuff maxLen n = .error .makesliceLenOutOfRange) ∧
    (n = 0 → NewRingBuff maxLen n = .ok ⟨[], -1, 0⟩ ∧
      ∀ v, Push ⟨[], -1, 0⟩ v = .error .indexOutOfRange) := by
  constructor
  · intro h
    unfold NewRingBuff makeSlice
    rw [if_pos (Or.inl h)]
    rfl
  · intro h
    subst h
    exact ⟨rfl, fun v => rfl⟩

theorem NewRingBuff_nonpositive_witness :
    (-1 : Int) < 0 ∧ NewRingBuff (2 ^ 45) (-1) = .error .makesliceLenOutOfRange ∧
      NewRingBuff (2 ^ 45) 0 = .ok ⟨[], -1, 0⟩ :=
  ⟨by decide, (NewRingBuff_nonpositive (2 ^ 45) (-1)).1 (by decide),
    ((NewRingBuff_nonpositive (2 ^ 45) 0).2 rfl).1⟩

/-- One tick of `consumer` on a buffer satisfying the invariant. -/
theorem consumerTick_inv (maxLen : Nat) (c : Int) (hmax : c ≤ maxLen) (r : RingBuff)
    (h : Inv c r) :
    consumerTick maxLen r
      = .ok (if held r = [] then [] else [held r], { r with p := -1 }) := by
  unfold consumerTick
  simp only [(Get_inv maxLen c hmax r h).1, bind, Except.bind]
  by_cases he : held r = []
  · simp [he, pure, Except.pure]
  · have : (held r).length > 0 := List.length_pos.2 he
    simp [he, this, pure, Except.pure]

/-- The sequential pipeline with a capacity `1 ≤ c` that `make` accepts. -/
theorem makePipeline_eq (maxLen c : Nat) (hc : 1 ≤ c) (hmax : c ≤ maxLen) (input : List Int) :
    makePipeline maxLen c input
      = .ok (if input.filter (fun v => decide (v ≥ 0 ∧ v ≠ 0 ∧ v % 3 = 0)) = [] then []
          else [(input.filter (fun v => decide (v ≥ 0 ∧ v ≠ 0 ∧ v % 3 = 0))).drop
            ((input.filter (fun v => decide (v ≥ 0 ∧ v ≠ 0 ∧ v % 3 = 0))).length
              - min (input.filter (fun v => decide (v ≥ 0 ∧ v ≠ 0 ∧ v % 3 = 0))).length c)]) := by
  have hsurv : divThreePipe (notNegPipe input)
      = input.filter (fun v => decide (v ≥ 0 ∧ v ≠ 0 ∧ v % 3 = 0)) := by
    rw [notNegPipe_eq_filter, divThreePipe_eq_filter, List.filter_filter]
    congr 1
    funext v
    simp only [Bool.decide_and, Bool.and_comm]
  generalize input.filter (fun v => decide (v ≥ 0 ∧ v ≠ 0 ∧ v % 3 = 0)) = surv at hsurv ⊢
  obtain ⟨r, hrun, hinv, hheld⟩ := pushAll_fresh c hc surv
  have e : surv.length - min surv.length c = surv.length - c := by omega
  have hnil : surv.drop (surv.length - c) = [] ↔ surv = [] := by
    constructor
    · intro h
      have hl := congrArg List.length h
      rw [List.length_drop, List.length_nil] at hl
      exact List.length_eq_zero.1 (by omega)
    · intro h; subst h; simp
  unfold makePipeline
  simp only [(NewRingBuff_inv maxLen c hmax).1, hsurv, buffPipe_eq_pushAll, hrun,
    consumerTick_inv maxLen c (by exact_mod_cast hmax) r hinv,
    hheld, bind, Except.bind, pure, Except.pure, e, hnil]

/-- C7. In the sequential reading of the pipeline, for every capacity `c ≥ 1` for which
`NewRingBuff(c)` returns its buffer and every list of submitted integers, the single flush
prints exactly the last `min j c` of the `j` submitted values that are `≥ 0`, non-zero and
divisible by 3, in submission order (and prints nothing when `j = 0`). With `c = 5`
(`RingBuffSize`) and `3, -3, 6, 9, 12, 15` it prints `[3 6 9 12 15]`; with `c = 3` and
`3, 6, 9, 12, 15, 18` it prints `[12 15 18]`, on every platform that has slices of these
lengths. -/
theorem makePipeline_delivers (maxLen c : Nat) (r0 : RingBuff) (hc : 1 ≤ c)
    (hnew : NewRingBuff maxLen c = .ok r0) (input : List Int) :
    makePipeline maxLen c input
      = .ok (if input.filter (fun v => decide (v ≥ 0 ∧ v ≠ 0 ∧ v % 3 = 0)) = [] then []
          else [(input.filter (fun v => decide (v ≥ 0 ∧ v ≠ 0 ∧ v % 3 = 0))).drop
            ((input.filter (fun v => decide (v ≥ 0 ∧ v ≠ 0 ∧ v % 3 = 0))).length
              - min (input.filter (fun v => decide (v ≥ 0 ∧ v ≠ 0 ∧ v % 3 = 0))).length c)])
    ∧ (5 ≤ maxLen →
        makePipeline maxLen RingBuffSize [3, -3, 6, 9, 12, 15] = .ok [[3, 6, 9, 12, 15]])
    ∧ (3 ≤ maxLen → makePipeline maxLen 3 [3, 6, 9, 12, 15, 18] = .ok [[12, 15, 18]]) := by
  refine ⟨makePipeline_eq maxLen c hc (NewRingBuff_returned maxLen c r0 hnew).1 input, ?_, ?_⟩
  · intro h5
    exact (makePipeline_eq maxLen 5 (by decide) h5 [3, -3, 6, 9, 12, 15]).trans rfl
  · intro h3
    exact (makePipeline_eq maxLen 3 (by decide) h3 [3, 6, 9, 12, 15, 18]).trans rfl

theorem makePipeline_delivers_witness :
    1 ≤ 2 ∧ NewRingBuff (2 ^ 45) (2 : Nat) = .ok ⟨[0, 0], -1, 2⟩ ∧
      makePipeline (2 ^ 45) (2 : Nat) [3, 1, -6, 0, 6, 9] = .ok [[6, 9]] ∧
      makePipeline (2 ^ 45) RingBuffSize [3, -3, 6, 9, 12, 15] = .ok [[3, 6, 9, 12, 15]] ∧
      makePipeline (2 ^ 45) 3 [3, 6, 9, 12, 15, 18] = .ok [[12, 15, 18]] :=
  ⟨by decide, rfl,
    (makePipeline_delivers (2 ^ 45) 2 ⟨[0, 0], -1, 2⟩ (by decide) (by rfl) [3, 1, -6, 0, 6, 9]).1,
    (makePipeline_delivers (2 ^ 45) 2 ⟨[0, 0], -1, 2⟩ (by decide) (by rfl) []).2.1 (by decide),
    (makePipeline_delivers (2 ^ 45) 2 ⟨[0, 0], -1, 2⟩ (by decide) (by rfl) []).2.2 (by decide)⟩

/-- C10. On a tick of `consumer`, for a buffer with `-1 ≤ p ≤ size - 1` and `size = len(data)`
whose `data` is a slice of the platform (`len(data) ≤ maxLen`), the print is executed iff the
slice `res` returned by `Get` is non-empty, and what is printed is exactly `res`; the buffer
left by the tick is empty, so a following tick with no `Push` in between prints nothing. -/
theorem consumerTick_prints_nonempty (maxLen : Nat) (r : RingBuff) (h0 : -1 ≤ r.p)
    (h1 : r.p ≤ r.size - 1) (hlen : r.size = r.data.length) (hmax : r.data.length ≤ maxLen) :
    ∃ res r' out, Get maxLen r = .ok (res, r') ∧ consumerTick maxLen r = .ok (out, r') ∧
      (res ≠ [] → out = [res]) ∧ (res = [] → out = []) ∧ (out ≠ [] ↔ res ≠ []) ∧
      consumerTick maxLen r' = .ok ([], r') := by
  have hinv : Inv r.size r := ⟨rfl, hlen.symm, h0, h1⟩
  have hmax' : r.size ≤ (maxLen : Int) := by omega
  obtain ⟨hget, hinv'⟩ := Get_inv maxLen r.size hmax' r hinv
  refine ⟨held r, _, _, hget, consumerTick_inv maxLen r.size hmax' r hinv, ?_, ?_, ?_, ?_⟩
  · intro h; rw [if_neg h]
  · intro h; rw [if_pos h]
  · by_cases h : held r = [] <;> simp [h]
  · rw [consumerTick_inv maxLen r.size hmax' _ hinv']
    simp [held]

theorem consumerTick_prints_nonempty_witness :
    ∃ res r' out, Get (2 ^ 45) ⟨[4, 5, 6], 1, 3⟩ = .ok (res, r') ∧
      consumerTick (2 ^ 45) ⟨[4, 5, 6], 1, 3⟩ = .ok (out, r') ∧
      (res ≠ [] → out = [res]) ∧ (res = [] → out = []) ∧ (out ≠ [] ↔ res ≠ []) ∧
      consumerTick (2 ^ 45) r' = .ok ([], r') :=
  consumerTick_prints_nonempty (2 ^ 45) ⟨[4, 5, 6], 1, 3⟩ (by decide) (by decide) rfl
    (by decide)

/-! ## Cancellation and locking -/

/-- C8, as stated, fails: closing the `done` channel a second time panics. -/
theorem close_twice_panics :
    (close { closed := false } >>= close) = .error .closeOfClosedChannel := rfl

/-- C8, amended. `main` signals cancellation at most once: whatever lines it reads, it does not
panic, and `done` is closed iff a scan error or an `exit` line was read. A first `close(done)`
succeeds and leaves the channel closed; `close` is not idempotent, a second `close(done)` on
the closed channel panics. -/
theorem main_closes_once (lines : List Line) :
    (∃ done sent, main lines = .ok (done, sent) ∧
      done.closed = lines.any (fun l => decide (l = .scanErr ∨ l = .exit))) ∧
    close { closed := false } = .ok { closed := true } ∧
    close { closed := true } = .error .closeOfClosedChannel := by
  refine ⟨?_, rfl, rfl⟩
  unfold main
  induction lines with
  | nil => exact ⟨_, _, rfl, rfl⟩
  | cons l ls ih =>
    obtain ⟨done, sent, hrun, hclosed⟩ := ih
    cases l with
    | scanErr => exact ⟨_, _, rfl, by simp⟩
    | exit => exact ⟨_, _, rfl, by simp⟩
    | num d =>
      refine ⟨done, d :: sent, ?_, ?_⟩
      · simp only [mainLoop, hrun, bind, Except.bind, pure, Except.pure]
      · simpa using hclosed
    | other =>
      refine ⟨done, sent, ?_, ?_⟩
      · simp only [mainLoop, hrun]
      · simpa using hclosed

theorem guarded_accesses (rest : List Event) : ∀ l : List Event,
    (∀ e ∈ l, ∃ f, e = .access f) → guarded true (l ++ rest) = guarded true rest := by
  intro l
  induction l with
  | nil => intro _; rfl
  | cons e l ih =>
    intro h
    obtain ⟨f, hf⟩ := h e (List.mem_cons_self _ _)
    subst hf
    have := ih (fun e he => h e (List.mem_cons_of_mem _ he))
    rw [List.cons_append]
    simp only [guarded, Bool.true_and]
    exact this

/-- C9: the code breaks the claim. In every call, `Get` reads `r.p` (the test `r.p < 0`) before
`r.m.Lock()`, so not every access of `Get` to the buffer state happens under the mutex;
`Push`, in contrast, locks first and makes all its accesses under the mutex. -/
theorem Get_reads_p_unlocked (r : RingBuff) :
    (GetEvents r).head? = some (.access .p) ∧ guarded false (GetEvents r) = false ∧
      guarded false (PushEvents r) = true := by
  refine ⟨rfl, rfl, ?_⟩
  unfold PushEvents
  by_cases hfull : r.p = r.size - 1
  · rw [if_pos hfull]
    simp only [List.append_assoc, List.singleton_append, List.cons_append, List.nil_append]
    simp only [guarded, Bool.true_and]
    rw [guarded_accesses]
    · simp [guarded]
    · intro e he
      simp only [List.mem_flatten, List.mem_replicate] at he
      obtain ⟨l, ⟨_, hl⟩, hel⟩ := he
      subst hl
      simp only [List.mem_cons, List.mem_singleton, List.not_mem_nil, or_false] at hel
      rcases hel with h | h | h <;> exact ⟨_, h⟩
  · rw [if_neg hfull]
    simp [guarded]

end Module26A
